import Mathlib

/-!
Verification development for the ORCA/Octo block transformer and dataset
mixture resolver.

The definitions below are a shallow embedding of the Python sources:
  orca/model/components/block_transformer.py
  orca/model/components/tokenizers.py
  orca/data/oxe/oxe_dataset_mixes.py
Tensors are embedded as nested lists (outermost axis first); the token
embedding axis is abstracted by a type parameter where the code never
inspects it.  Machine floats carried as sampling weights are embedded as
rationals (the resolver only moves them around, it never computes with
them).
-/

namespace Orca

/-- PrefixGroup from block_transformer.py: a non-temporal token group.
tokens has shape (batch, n_tokens, token_embedding_size); the embedding
axis is the type parameter. -/
structure PrefixGroup (α : Type) where
  name : String
  tokens : List (List α)
  attendsTo : List String
  deriving DecidableEq

/-- TimestepGroup from block_transformer.py: a temporal token group.
tokens has shape (batch, horizon, n_tokens, token_embedding_size). -/
structure TimestepGroup (α : Type) where
  name : String
  tokens : List (List (List α))
  attendsTo : List String
  deriving DecidableEq

/-- TokenMetadata from block_transformer.py (timestep is -1 for tokens of
a non-temporal group). -/
structure TokenMetadata where
  groupName : String
  timestep : Int
  attendsTo : List String

/-- np.cumsum on a list of naturals (no leading zero). -/
def cumsum : List Nat → List Nat
  | [] => []
  | x :: xs => x :: (cumsum xs).map (fun c => x + c)

/-- np.searchsorted(a, v) with the default side (the insertion point that
keeps a sorted, placing v before equal elements): the first index whose
element is at least v, or the length when there is none. -/
def searchsortedLeft (a : List Nat) (v : Nat) : Nat :=
  a.findIdx (fun c => decide (v ≤ c))

/-- _get_position from block_transformer.py. -/
def getPosition (i : Nat) (tokensPerElem : List Nat) : Nat :=
  searchsortedLeft (cumsum tokensPerElem) i

/-- shape[1] of a rank-3 tensor (n_tokens of a PrefixGroup). -/
def nTokensP {α : Type} (g : PrefixGroup α) : Nat :=
  (g.tokens.headD []).length

/-- shape[2] of a rank-4 tensor (n_tokens of a TimestepGroup). -/
def nTokensT {α : Type} (g : TimestepGroup α) : Nat :=
  ((g.tokens.headD []).headD []).length

/-- attends_to of a missing group (never hit on in-range indices). -/
def emptyMetadata : TokenMetadata := ⟨"", -1, []⟩

/-- get_token_description from BlockTransformer.generate_attention_mask:
map a flattened position to its (group name, timestep, attends_to)
descriptor.  Positions below the total count of non-temporal tokens are
resolved by searchsorted over the cumulative non-temporal counts
(timestep sentinel -1); the rest by divmod with the tokens per time step
and searchsorted over the cumulative per-step counts. -/
def getTokenDescription {α : Type}
    (pgroups : List (PrefixGroup α)) (tgroups : List (TimestepGroup α))
    (i : Nat) : TokenMetadata :=
  let tokensPerPGroup := pgroups.map nTokensP
  let tokensPerTGroup := tgroups.map nTokensT
  let tokensForTask := tokensPerPGroup.sum
  let tokensPerStep := tokensPerTGroup.sum
  if i < tokensForTask then
    let position := getPosition i tokensPerPGroup
    match pgroups.getD position ⟨"", [], []⟩ with
    | g => ⟨g.name, -1, g.attendsTo⟩
  else
    let i2 := i - tokensForTask
    let timestep := i2 / tokensPerStep
    let r := i2 % tokensPerStep
    let position := getPosition r tokensPerTGroup
    match tgroups.getD position ⟨"", [], []⟩ with
    | g => ⟨g.name, (timestep : Int), g.attendsTo⟩

/-- The double loop of BlockTransformer.generate_attention_mask before the
padding mask is applied: entry (i, j), with i the row index (the loop
comment calls i the token attending and j the token being attended to).
The entry is int(timestep_i <= timestep_j) when the two descriptors share
a group name or j's group name is in i's attends_to, else 0. -/
def attentionMaskGC {α : Type}
    (pgroups : List (PrefixGroup α)) (tgroups : List (TimestepGroup α))
    (i j : Nat) : Bool :=
  let di := getTokenDescription pgroups tgroups i
  let dj := getTokenDescription pgroups tgroups j
  if di.groupName = dj.groupName then decide (di.timestep ≤ dj.timestep)
  else if dj.groupName ∈ di.attendsTo then decide (di.timestep ≤ dj.timestep)
  else false

/-- The (batch, total_tokens) validity row of
BlockTransformer.generate_pad_attention_mask for one batch element:
ones for the non-temporal token columns, then the pad mask row with each
entry repeated tokens_per_time_step times. -/
def padFullRow (padRow : List Bool) (tokensPerStep tokensForTask : Nat) :
    List Bool :=
  List.replicate tokensForTask true ++
    padRow.flatMap (fun p => List.replicate tokensPerStep p)

/-- BlockTransformer.generate_pad_attention_mask: the validity row
broadcast to (batch, num_heads, total_tokens, total_tokens); the value at
(b, h, q, k) only depends on b and the key column k. -/
def generatePadAttentionMask (numHeads : Nat) (padMask : List (List Bool))
    (tokensPerStep tokensForTask : Nat) : Nat → Nat → Nat → Nat → Bool :=
  fun b _h _q k =>
    let _ := numHeads
    (padFullRow (padMask.getD b []) tokensPerStep tokensForTask).getD k false

/-- BlockTransformer.generate_attention_mask: the group/causal matrix
logical-anded with the broadcast padding mask. -/
def generateAttentionMask {α : Type} (numHeads : Nat)
    (pgroups : List (PrefixGroup α)) (tgroups : List (TimestepGroup α))
    (padMask : List (List Bool)) : Nat → Nat → Nat → Nat → Bool :=
  fun b h q k =>
    attentionMaskGC pgroups tgroups q k &&
      generatePadAttentionMask numHeads padMask
        (tgroups.map nTokensT).sum (pgroups.map nTokensP).sum b h q k

/-- total_tokens of generate_attention_mask, with horizon read off the pad
mask's second axis. -/
def totalTokens {α : Type}
    (pgroups : List (PrefixGroup α)) (tgroups : List (TimestepGroup α))
    (horizon : Nat) : Nat :=
  (pgroups.map nTokensP).sum + (tgroups.map nTokensT).sum * horizon

/-- BlockTransformer.assemble_input_tokens: per batch element, the
concatenation of all non-temporal group slices followed by the
horizon-major flattening of the per-step concatenation of all temporal
group slices.  With no non-temporal groups the first part is the empty
placeholder.  Batch size and horizon are read off the first temporal
group, as the jnp shapes force once the concatenations are well-formed. -/
def assembleInputTokens {α : Type}
    (pgroups : List (PrefixGroup α)) (tgroups : List (TimestepGroup α)) :
    List (List α) :=
  let batch := ((tgroups.getD 0 ⟨"", [], []⟩).tokens).length
  let horizon := ((tgroups.getD 0 ⟨"", [], []⟩).tokens.headD []).length
  (List.range batch).map (fun b =>
    (pgroups.map (fun g => g.tokens.getD b [])).flatten ++
      ((List.range horizon).map (fun t =>
        (tgroups.map (fun g => (g.tokens.getD b []).getD t [])).flatten)).flatten)

/-- split_tokens from block_transformer.py: jnp.split at the cumulative
sums, yielding one piece per count followed by the remainder. -/
def splitTokensE {β : Type} : List Nat → List β → List (List β)
  | [], xs => [xs]
  | c :: cs, xs => xs.take c :: splitTokensE cs (xs.drop c)

/-- The einops rearrange "(horizon n) d -> horizon n d": cut a flat list
into `horizon` consecutive chunks of `n` elements. -/
def chunkRows {β : Type} : Nat → Nat → List β → List (List β)
  | 0, _, _ => []
  | h + 1, n, xs => xs.take n :: chunkRows h n (xs.drop n)

/-- The non-temporal half of the output disassembly in
BlockTransformer.__call__: split the first sum-of-counts output positions
at the cumulative counts and rebuild one group per input group (the final
remainder piece of jnp.split is discarded by the zip); with no
non-temporal groups the output list is empty. -/
def disassembleP {α β : Type}
    (pgroups : List (PrefixGroup α)) (output : List (List β)) :
    List (PrefixGroup β) :=
  if 0 < pgroups.length then
    (List.range pgroups.length).map (fun gi =>
      let g := pgroups.getD gi ⟨"", [], []⟩
      (⟨g.name,
        output.map (fun row =>
          (splitTokensE (pgroups.map nTokensP)
            (row.take (pgroups.map nTokensP).sum)).getD gi []),
        g.attendsTo⟩ : PrefixGroup β))
  else []

/-- The temporal half of the output disassembly in
BlockTransformer.__call__: drop the non-temporal positions, unfold the
horizon axis, split each step at the cumulative per-step counts and
rebuild one group per input group. -/
def disassembleT {α β : Type}
    (tgroups : List (TimestepGroup α)) (horizon nTaskTokens : Nat)
    (output : List (List β)) : List (TimestepGroup β) :=
  (List.range tgroups.length).map (fun gi =>
    let g := tgroups.getD gi ⟨"", [], []⟩
    (⟨g.name,
      output.map (fun row =>
        (chunkRows horizon (tgroups.map nTokensT).sum
          (row.drop nTaskTokens)).map
          (fun step => (splitTokensE (tgroups.map nTokensT) step).getD gi [])),
      g.attendsTo⟩ : TimestepGroup β))

/-- BlockTransformer.__call__: check that all temporal groups share the
first group's horizon (the assert aborts the call otherwise, before the
attention mask is built and before the encoder runs), then build the mask,
assemble the input, run the external encoder E, and split the output back
into per-group embeddings, keeping each group's name and attends_to.
The external transformer is a parameter, per the spec's black-box
interface encode(tokens, mask, train). -/
def blockTransformerCall {α β : Type}
    (E : List (List α) → (Nat → Nat → Nat → Nat → Bool) → List (List β))
    (numHeads : Nat)
    (pgroups : List (PrefixGroup α)) (tgroups : List (TimestepGroup α))
    (padMask : List (List Bool)) :
    Option (List (PrefixGroup β) × List (TimestepGroup β)) :=
  match tgroups with
  | [] => none
  | t0 :: _ =>
    let horizon := (t0.tokens.headD []).length
    if tgroups.all (fun g => (g.tokens.headD []).length = horizon) then
      let mask := generateAttentionMask numHeads pgroups tgroups padMask
      let input := assembleInputTokens pgroups tgroups
      let output := E input mask
      some (disassembleP pgroups output,
        disassembleT tgroups horizon (pgroups.map nTokensP).sum output)
    else none

/-- A concrete instance of the spec's black-box encoder interface used to
exercise the orchestrator: each output position is the sum of the input
tokens its attention-mask row lets it see (head 0; the builder broadcasts
the same mask to every head).  It reads input tokens only through the
mask, as any masked attention layer without position embeddings does. -/
def sumEncoder (toks : List (List Int)) (mask : Nat → Nat → Nat → Nat → Bool) :
    List (List Int) :=
  (List.range toks.length).map (fun b =>
    let row := toks.getD b []
    (List.range row.length).map (fun q =>
      ((List.range row.length).filter (fun k => mask b 0 q k)).foldl
        (fun s k => s + row.getD k 0) 0))

/-- A rank-3 tensor embedded as nested lists has shape (b, n, d). -/
def Shape3 {γ : Type} (x : List (List (List γ))) (b n d : Nat) : Prop :=
  x.length = b ∧ ∀ r ∈ x, r.length = n ∧ ∀ v ∈ r, v.length = d

/-- A rank-4 tensor embedded as nested lists has shape (b, h, n, d). -/
def Shape4 {γ : Type} (x : List (List (List (List γ)))) (b h n d : Nat) :
    Prop :=
  x.length = b ∧ ∀ s ∈ x, s.length = h ∧
    ∀ r ∈ s, r.length = n ∧ ∀ v ∈ r, v.length = d

/-- A length-preserving encoder that maps every token to the
one-dimensional embedding [0]; instantiates the spec's interface of an
encoder that only changes the embedding dimension. -/
def constEncoder (toks : List (List (List Rat)))
    (_mask : Nat → Nat → Nat → Nat → Bool) : List (List (List Rat)) :=
  toks.map (fun row => row.map (fun _ => [0]))

/-- One temporal group with a single one-token timestep: the minimal
configuration on which the builder's anti-causal comparison shows. -/
def c1Obs : TimestepGroup Unit := ⟨"obs", [[[()], [()]]], []⟩

/-- The end-to-end example's non-temporal group: "task" with 3 tokens. -/
def c2Task : PrefixGroup Unit := ⟨"task", [List.replicate 3 ()], []⟩

/-- The end-to-end example's temporal group: "obs" with 2 tokens per step,
horizon 2, attending to "task". -/
def c2Obs : TimestepGroup Unit :=
  ⟨"obs", [[List.replicate 2 (), List.replicate 2 ()]], ["task"]⟩

/-- A pre-existing temporal group with one scalar token of value 1. -/
def c3Obs : TimestepGroup Int := ⟨"obs", [[[1]]], []⟩

/-- An added temporal group with a fresh name, empty attends_to, and one
scalar token of value 5; no other group attends to it. -/
def c3New : TimestepGroup Int := ⟨"new", [[[5]]], []⟩

/-- A one-token non-temporal group used for the padding claims. -/
def c4Task : PrefixGroup Unit := ⟨"task", [[()]], []⟩

/-- A one-token-per-step temporal group over horizon 2 used for the
padding claims. -/
def c4Obs : TimestepGroup Unit := ⟨"obs", [[[()], [()]]], ["task"]⟩

/-- A temporal group of horizon 2 (rational tokens). -/
def c7A : TimestepGroup Int := ⟨"a", [[[1], [1]]], []⟩

/-- A temporal group of horizon 1, mismatching c7A. -/
def c7B : TimestepGroup Int := ⟨"b", [[[1]]], []⟩

/-- A non-temporal group with one 2-dimensional token. -/
def c6Task : PrefixGroup (List Rat) := ⟨"task", [[[1, 2]]], []⟩

/-- A temporal group with one 2-dimensional token per step, horizon 1. -/
def c6Obs : TimestepGroup (List Rat) := ⟨"obs", [[[[3, 4]]]], ["task"]⟩

end Orca

namespace OxeMix

/-- Modelled from the spec: the action-encoding enum of
orca/data/utils/data_utils.py is imported by the resolver but its
definition is not among the provided sources; the spec only distinguishes
the supported end-effector-pose-delta encoding from everything else. -/
inductive ActionEncoding where
  | EEF_POS
  | JOINT_POS
  deriving DecidableEq

/-- The fields of a registered per-dataset schema that
make_oxe_dataset_kwargs_and_weights reads; the registry mapping names to
schemas is an external collaborator per the spec and is a parameter. -/
structure DatasetConfig where
  actionEncoding : ActionEncoding
  imageObsKeys : List String
  depthObsKeys : List String
  stateObsKeys : List String
  deriving DecidableEq

/-- One resolved per-dataset load configuration
({"name", "data_dir", **kwargs} with the trimmed key lists; a popped key
is none). -/
structure ResolvedDatasetKwargs where
  name : String
  dataDir : String
  actionEncoding : ActionEncoding
  imageObsKeys : List String
  depthObsKeys : Option (List String)
  stateObsKeys : Option (List String)
  deriving DecidableEq

/-- The camera-key trimming of make_oxe_dataset_kwargs_and_weights:
keys[:n_third_person_cameras] ++ (keys[-n_wrist_cameras:] if
n_wrist_cameras else []), with the python negative slice clamped like
truncated subtraction. -/
def trimKeys (keys : List String) (nThirdPersonCameras nWristCameras : Nat) :
    List String :=
  keys.take nThirdPersonCameras ++
    (if nWristCameras ≠ 0 then keys.drop (keys.length - nWristCameras) else [])

/-- One iteration of the deduplication loop of
make_oxe_dataset_kwargs_and_weights: the state is the kept pairs plus the
included names; a pair is appended only when its name is not yet
included. -/
def dedupStep (acc : List (String × Rat) × List String) (p : String × Rat) :
    List (String × Rat) × List String :=
  if p.1 ∈ acc.2 then acc else (acc.1 ++ [p], acc.2 ++ [p.1])

/-- The deduplication loop of make_oxe_dataset_kwargs_and_weights. -/
def dedupMix (mix : List (String × Rat)) : List (String × Rat) :=
  (mix.foldl dedupStep ([], [])).1

/-- The resolved load configuration built for one kept dataset:
{"name": dataset, "data_dir": data_dir, **kwargs} after camera trimming
and the optional depth/proprio pops. -/
def resolveEntry (registry : String → DatasetConfig) (dataDir : String)
    (nThirdPersonCameras nWristCameras : Nat) (loadDepth loadProprio : Bool)
    (p : String × Rat) : ResolvedDatasetKwargs :=
  let cfg := registry p.1
  ⟨p.1, dataDir, cfg.actionEncoding,
    trimKeys cfg.imageObsKeys nThirdPersonCameras nWristCameras,
    (if loadDepth then
      some (trimKeys cfg.depthObsKeys nThirdPersonCameras nWristCameras)
     else none),
    (if loadProprio then some cfg.stateObsKeys else none)⟩

/-- One iteration of the resolution loop: a dataset whose registered
action encoding is not EEF_POS is skipped; otherwise its resolved config
and weight are appended to the two result lists. -/
def resolveStep (registry : String → DatasetConfig) (dataDir : String)
    (nThirdPersonCameras nWristCameras : Nat) (loadDepth loadProprio : Bool)
    (acc : List ResolvedDatasetKwargs × List Rat) (p : String × Rat) :
    List ResolvedDatasetKwargs × List Rat :=
  if (registry p.1).actionEncoding ≠ ActionEncoding.EEF_POS then acc
  else
    (acc.1 ++ [resolveEntry registry dataDir nThirdPersonCameras
      nWristCameras loadDepth loadProprio p], acc.2 ++ [p.2])

/-- make_oxe_dataset_kwargs_and_weights from oxe_dataset_mixes.py: after
optional deduplication, look each dataset up in the registry, drop it when
its action encoding is not EEF_POS, trim the camera key lists, drop the
depth/proprio keys when not requested, and append the resolved config and
its weight to the two result lists in lockstep. -/
def makeOxeDatasetKwargsAndWeights (registry : String → DatasetConfig)
    (dataMix : List (String × Rat)) (dataDir : String) (deduplicate : Bool)
    (nThirdPersonCameras nWristCameras : Nat)
    (loadDepth loadProprio : Bool) :
    List ResolvedDatasetKwargs × List Rat :=
  let mix := if deduplicate then dedupMix dataMix else dataMix
  mix.foldl (resolveStep registry dataDir nThirdPersonCameras nWristCameras
    loadDepth loadProprio) ([], [])

/-- Spec-side restatement of first-occurrence-wins deduplication, written
from the spec's words alone: keep the head and recurse on the tail with
every later pair of the same name removed. -/
def keepFirst : List (String × Rat) → List (String × Rat)
  | [] => []
  | p :: rest => p :: keepFirst (rest.filter (fun q => q.1 ≠ p.1))
  termination_by l => l.length
  decreasing_by
    simp only [List.length_cons]
    exact Nat.lt_succ_of_le (List.length_filter_le _ _)

/-- The state of the deduplication loop made explicit: pairs still to
visit, given the names already included. -/
def keepFirstIgnoring : List String → List (String × Rat) → List (String × Rat)
  | _, [] => []
  | seen, p :: rest =>
    if p.1 ∈ seen then keepFirstIgnoring seen rest
    else p :: keepFirstIgnoring (seen ++ [p.1]) rest

/-- A registry whose every dataset has the camera-key list of the camera
trimming example, with the supported action encoding. -/
def regW : String → DatasetConfig :=
  fun _ => ⟨ActionEncoding.EEF_POS, ["cam0", "cam1", "cam2", "wrist0"], [], []⟩

end OxeMix

namespace Tok

/-- EPS from tokenizers.py. -/
def eps : Rat := 1 / 1000000

/-- The binning modes of BinTokenizer (an unknown string raises in setup). -/
inductive BinType where
  | uniform
  | normal
  deriving DecidableEq

/-- The per-bin one-hot row of BinTokenizer.__call__ for one scalar input:
entry k is (x < thresholds[k+1]) & (x >= thresholds[k]) as a 0/1 value. -/
def binOneHot (thresholds : List Rat) (x : Rat) : List Nat :=
  ((thresholds.drop 1).zip thresholds.dropLast).map
    (fun pr => if x < pr.1 ∧ pr.2 ≤ x then 1 else 0)

/-- jnp.argmax on a vector: the first index attaining the maximum (0 on an
all-equal vector, in particular on an all-zero one). -/
def argmaxIdx (l : List Nat) : Nat :=
  l.findIdx (fun v => decide (v = l.foldl Nat.max 0))

/-- BinTokenizer.__call__ on one scalar: inputs are clipped into
[low + EPS, high - EPS] only for uniform binning, then binned by the
one-hot-and-argmax construction.  The thresholds are those computed in
setup; for bin_type "normal" they are the Gaussian quantiles
norm.ppf(linspace(EPS, 1 - EPS, n_bins + 1)), a strictly increasing list
whose irrational values are abstracted: the claims below depend only on
the list being sorted. -/
def binTokenizerCall (binType : BinType) (low high : Rat)
    (thresholds : List Rat) (x : Rat) : Nat :=
  let x := if binType = BinType.uniform then
    min (max x (low + eps)) (high - eps) else x
  argmaxIdx (binOneHot thresholds x)

end Tok

namespace Orca

theorem getD_replicate' {γ : Type} (n i : Nat) (a d : γ) (h : i < n) :
    (List.replicate n a).getD i d = a := by
  rw [List.getD_eq_getElem _ _ (by simpa using h)]
  simp

theorem getD_flatMap_replicate {γ : Type} (tps : Nat) (row : List γ)
    (m : Nat) (d : γ) (hm : m < row.length * tps) :
    (row.flatMap (fun p => List.replicate tps p)).getD m d =
      row.getD (m / tps) d := by
  induction row generalizing m with
  | nil => simp at hm
  | cons p rest ih =>
    have htps : 0 < tps := by
      rcases Nat.eq_zero_or_pos tps with h0 | h0
      · rw [h0] at hm; simp at hm
      · exact h0
    rw [List.flatMap_cons]
    by_cases h : m < tps
    · rw [List.getD_append _ _ _ _ (by simpa using h)]
      rw [Nat.div_eq_of_lt h]
      exact getD_replicate' tps m p d h
    · push_neg at h
      rw [List.getD_append_right _ _ _ _ (by simpa using h)]
      have hb : m - tps < rest.length * tps := by
        have hm2 : m < rest.length * tps + tps := by
          have : (p :: rest).length * tps = rest.length * tps + tps := by
            rw [List.length_cons, Nat.succ_mul]
          rw [this] at hm
          exact hm
        omega
      rw [List.length_replicate, ih _ hb]
      have hdiv : m / tps = (m - tps) / tps + 1 := Nat.div_eq_sub_div htps h
      rw [hdiv]
      rfl

/-- Claim C1 (code bug evaluation): on a single one-token-per-step
temporal group over horizon 2, the group/causal mask builder grants the
query at timestep 0 visibility of the key at timestep 1 and denies the
query at timestep 1 visibility of the key at timestep 0 — the exact
reverse of the claimed rule timestep(i) >= timestep(j): the code compares
description_i.timestep <= description_j.timestep while i is the attending
(query) position of the loop and the axis the padding mask is anded onto
is the key axis. -/
theorem c1_mask_anticausal_eval :
    attentionMaskGC ([] : List (PrefixGroup Unit)) [c1Obs] 0 1 = true ∧
    attentionMaskGC ([] : List (PrefixGroup Unit)) [c1Obs] 1 0 = false := by
  decide

/-- Claim C2 (code bug evaluation): on the end-to-end example (task with
3 tokens, obs with 2 tokens per step attending to task, horizon 2, pad
mask all true) the flattened sequence has 7 tokens, but the obs queries
see neither the task keys (query 3 and query 5 to key 0) nor, for obs at
timestep 1, the obs keys of timestep 0 (query 5 to key 3), while obs at
timestep 0 wrongly sees obs at timestep 1 (query 3 to key 5): the flipped
timestep comparison of the builder inverts the claimed visibility. -/
theorem c2_example_eval :
    totalTokens [c2Task] [c2Obs] 2 = 7 ∧
    generateAttentionMask 8 [c2Task] [c2Obs] [[true, true]] 0 0 3 0 = false ∧
    generateAttentionMask 8 [c2Task] [c2Obs] [[true, true]] 0 0 5 0 = false ∧
    generateAttentionMask 8 [c2Task] [c2Obs] [[true, true]] 0 0 5 3 = false ∧
    generateAttentionMask 8 [c2Task] [c2Obs] [[true, true]] 0 0 3 5 = true := by
  decide

/-- Claim C3 (code bug evaluation): adding the fresh group "new" (empty
attends_to, referenced by nobody) behind the existing group "obs" changes
the obs output embedding of a mask-respecting encoder from [[[1]]] to
[[[6]]], because np.searchsorted with its default side attributes the
first token of the added per-step block to the preceding group, so the
mask row of the obs query turns the added key column on (last conjunct) —
the independence property asserted by the claim and by the __call__
docstring fails on the code. -/
theorem c3_independence_violated :
    blockTransformerCall sumEncoder 8 ([] : List (PrefixGroup Int)) [c3Obs]
        [[true]] = some ([], [⟨"obs", [[[1]]], []⟩]) ∧
    blockTransformerCall sumEncoder 8 ([] : List (PrefixGroup Int))
        [c3Obs, c3New] [[true]] =
      some ([], [⟨"obs", [[[6]]], []⟩, ⟨"new", [[[6]]], []⟩]) ∧
    generateAttentionMask 8 ([] : List (PrefixGroup Int)) [c3Obs, c3New]
        [[true]] 0 0 0 1 = true := by
  refine ⟨by decide, by decide, by decide⟩

end Orca

namespace Orca

/-- Claim C5: for every flattened position i of a token whose timestep is
not padded (non-temporal positions are never padded), the final attention
mask has a true diagonal entry at (i, i), for every batch element and
head: the descriptor of i trivially shares its own group name and
timestep, and the padding row is true there. -/
theorem c5_self_visibility {α : Type} (numHeads : Nat)
    (pgroups : List (PrefixGroup α)) (tgroups : List (TimestepGroup α))
    (padMask : List (List Bool)) (b h i : Nat)
    (hvalid : i < (pgroups.map nTokensP).sum ∨
      (i < totalTokens pgroups tgroups (padMask.getD b []).length ∧
        (padMask.getD b []).getD
          ((i - (pgroups.map nTokensP).sum) / (tgroups.map nTokensT).sum)
          false = true)) :
    generateAttentionMask numHeads pgroups tgroups padMask b h i i = true := by
  have hgc : attentionMaskGC pgroups tgroups i i = true := by
    unfold attentionMaskGC
    simp
  have hpad : generatePadAttentionMask numHeads padMask
      (tgroups.map nTokensT).sum (pgroups.map nTokensP).sum b h i i = true := by
    unfold generatePadAttentionMask padFullRow
    by_cases hi : i < (pgroups.map nTokensP).sum
    · rw [List.getD_append _ _ _ _ (by simpa using hi)]
      exact getD_replicate' _ _ _ _ hi
    · push_neg at hi
      rcases hvalid with hcase | ⟨hlt, hpadbit⟩
      · exact absurd hcase (Nat.not_lt.mpr hi)
      · rw [List.getD_append_right _ _ _ _ (by simpa using hi)]
        have hmb : i - (pgroups.map nTokensP).sum <
            (padMask.getD b []).length * (tgroups.map nTokensT).sum := by
          unfold totalTokens at hlt
          rw [Nat.mul_comm]
          omega
        rw [List.length_replicate, getD_flatMap_replicate _ _ _ _ hmb]
        exact hpadbit
  show (attentionMaskGC pgroups tgroups i i &&
    generatePadAttentionMask numHeads padMask (tgroups.map nTokensT).sum
      (pgroups.map nTokensP).sum b h i i) = true
  rw [hgc, hpad]
  rfl

/-- Witness for C5 at the concrete configuration task(1 token), obs(1
token per step, horizon 2), pad [[true, false]]: the diagonal entry of
the unpadded obs position 1 is true. -/
theorem c5_self_visibility_witness :
    generateAttentionMask 8 [c4Task] [c4Obs] [[true, false]] 0 0 1 1 = true :=
  c5_self_visibility 8 [c4Task] [c4Obs] [[true, false]] 0 0 1
    (Or.inr ⟨by decide, by decide⟩)

/-- Claim C4: for a batch element b and timestep t whose pad bit is
false, every final-mask entry in a key column of a token of timestep t is
false for every query and head; key columns of non-temporal tokens always
carry a true padding bit; and the final mask is the pointwise
conjunction of the group/causal matrix with the broadcast padding mask. -/
theorem c4_padding_exclusion {α : Type} (numHeads : Nat)
    (pgroups : List (PrefixGroup α)) (tgroups : List (TimestepGroup α))
    (padMask : List (List Bool)) (b t : Nat)
    (ht : t < (padMask.getD b []).length)
    (hpad : (padMask.getD b []).getD t false = false) :
    (∀ h q r, r < (tgroups.map nTokensT).sum →
      generateAttentionMask numHeads pgroups tgroups padMask b h q
        ((pgroups.map nTokensP).sum + t * (tgroups.map nTokensT).sum + r) =
        false) ∧
    (∀ b' h q k, k < (pgroups.map nTokensP).sum →
      generatePadAttentionMask numHeads padMask (tgroups.map nTokensT).sum
        (pgroups.map nTokensP).sum b' h q k = true) ∧
    (∀ h q k,
      generateAttentionMask numHeads pgroups tgroups padMask b h q k =
        (attentionMaskGC pgroups tgroups q k &&
          generatePadAttentionMask numHeads padMask
            (tgroups.map nTokensT).sum (pgroups.map nTokensP).sum b h q k)) := by
  refine ⟨?_, ?_, fun h q k => rfl⟩
  · intro h q r hr
    have htps : 0 < (tgroups.map nTokensT).sum := Nat.pos_of_ne_zero (by omega)
    have hpadcol : generatePadAttentionMask numHeads padMask
        (tgroups.map nTokensT).sum (pgroups.map nTokensP).sum b h q
        ((pgroups.map nTokensP).sum + t * (tgroups.map nTokensT).sum + r) =
        false := by
      unfold generatePadAttentionMask padFullRow
      rw [List.getD_append_right _ _ _ _ (by simp; omega)]
      have hidx : (pgroups.map nTokensP).sum + t * (tgroups.map nTokensT).sum
          + r - (List.replicate (pgroups.map nTokensP).sum true).length =
          t * (tgroups.map nTokensT).sum + r := by
        rw [List.length_replicate]
        omega
      rw [hidx]
      have hb : t * (tgroups.map nTokensT).sum + r <
          (padMask.getD b []).length * (tgroups.map nTokensT).sum := by
        have h1 : t * (tgroups.map nTokensT).sum + r <
            (t + 1) * (tgroups.map nTokensT).sum := by
          rw [Nat.succ_mul]
          omega
        have h2 : (t + 1) * (tgroups.map nTokensT).sum ≤
            (padMask.getD b []).length * (tgroups.map nTokensT).sum :=
          Nat.mul_le_mul_right _ ht
        omega
      rw [getD_flatMap_replicate _ _ _ _ hb]
      have hdiv : (t * (tgroups.map nTokensT).sum + r) /
          (tgroups.map nTokensT).sum = t := by
        rw [Nat.mul_comm, Nat.mul_add_div htps, Nat.div_eq_of_lt hr]
        omega
      rw [hdiv]
      exact hpad
    show (attentionMaskGC pgroups tgroups q _ &&
      generatePadAttentionMask numHeads padMask (tgroups.map nTokensT).sum
        (pgroups.map nTokensP).sum b h q _) = false
    rw [hpadcol]
    exact Bool.and_false _
  · intro b' h q k hk
    unfold generatePadAttentionMask padFullRow
    rw [List.getD_append _ _ _ _ (by simpa using hk)]
    exact getD_replicate' _ _ _ _ hk

end Orca

namespace Orca

/-- Witness for C4 at task(1 token), obs(1 token per step, horizon 2),
pad [[true, false]], batch element 0, padded timestep 1: the key column 2
(obs at timestep 1) is false for query 0, the non-temporal key column 0
always has a true padding bit, and the final mask entry (1, 2)
decomposes as the stated conjunction. -/
theorem c4_padding_exclusion_witness :
    generateAttentionMask 8 [c4Task] [c4Obs] [[true, false]] 0 0 0 2 = false ∧
    generatePadAttentionMask 8 [[true, false]] 1 1 0 0 0 0 = true ∧
    generateAttentionMask 8 [c4Task] [c4Obs] [[true, false]] 0 0 1 2 =
      (attentionMaskGC [c4Task] [c4Obs] 1 2 &&
        generatePadAttentionMask 8 [[true, false]] 1 1 0 0 1 2) := by
  have h := c4_padding_exclusion 8 [c4Task] [c4Obs] [[true, false]] 0 1
    (by decide) (by decide)
  exact ⟨h.1 0 0 0 (by decide), h.2.1 0 0 0 0 (by decide), h.2.2 0 1 2⟩

/-- Claim C7: when two temporal groups passed to one forward call have
different horizons, the call aborts with no output at all, whatever the
external encoder is (the assert sits before the mask construction and the
encoder invocation); when all temporal groups share one horizon the check
passes and the call returns a result. -/
theorem c7_horizon_mismatch_aborts {α β : Type}
    (E : List (List α) → (Nat → Nat → Nat → Nat → Bool) → List (List β))
    (numHeads : Nat) (pgroups : List (PrefixGroup α))
    (padMask : List (List Bool)) :
    (∀ (tgroups : List (TimestepGroup α)) (g1 g2 : TimestepGroup α),
      g1 ∈ tgroups → g2 ∈ tgroups →
      (g1.tokens.headD []).length ≠ (g2.tokens.headD []).length →
      blockTransformerCall E numHeads pgroups tgroups padMask = none) ∧
    (∀ (tgroups : List (TimestepGroup α)) (hor : Nat), tgroups ≠ [] →
      (∀ g ∈ tgroups, (g.tokens.headD []).length = hor) →
      ∃ out, blockTransformerCall E numHeads pgroups tgroups padMask =
        some out) := by
  constructor
  · intro tgroups g1 g2 h1 h2 hne
    cases tgroups with
    | nil => rfl
    | cons t0 rest =>
      rw [blockTransformerCall]
      rw [if_neg]
      intro hall
      rw [List.all_eq_true] at hall
      have e1 := of_decide_eq_true (hall g1 h1)
      have e2 := of_decide_eq_true (hall g2 h2)
      exact hne (e1.trans e2.symm)
  · intro tgroups hor hne hall
    cases tgroups with
    | nil => exact absurd rfl hne
    | cons t0 rest =>
      rw [blockTransformerCall]
      rw [if_pos]
      · exact ⟨_, rfl⟩
      · rw [List.all_eq_true]
        intro g hg
        have hg0 := hall t0 (List.mem_cons_self _ _)
        have hgg := hall g hg
        exact decide_eq_true (hgg.trans hg0.symm)

/-- Witness for C7: the horizon-2 group c7A next to the horizon-1 group
c7B aborts the call with no output, while c7A alone passes the check. -/
theorem c7_horizon_mismatch_aborts_witness :
    blockTransformerCall sumEncoder 8 ([] : List (PrefixGroup Int))
      [c7A, c7B] [[true, true]] = none ∧
    ∃ out, blockTransformerCall sumEncoder 8 ([] : List (PrefixGroup Int))
      [c7A] [[true, true]] = some out :=
  ⟨(c7_horizon_mismatch_aborts sumEncoder 8 [] [[true, true]]).1
      [c7A, c7B] c7A c7B (by decide) (by decide) (by decide),
    (c7_horizon_mismatch_aborts sumEncoder 8 [] [[true, true]]).2
      [c7A] 2 (by decide) (by decide)⟩

end Orca

namespace Tok

theorem sorted_head_le (a : Rat) (l : List Rat)
    (hs : (a :: l).Sorted (· ≤ ·)) (b : Rat) (hb : b ∈ a :: l) : a ≤ b := by
  rcases List.mem_cons.mp hb with rfl | hb'
  · exact le_refl _
  · exact (List.sorted_cons.mp hs).1 b hb'

theorem sorted_le_getLast (l : List Rat) (hs : l.Sorted (· ≤ ·))
    (b tn : Rat) (hb : b ∈ l) (hl : l.getLast? = some tn) : b ≤ tn := by
  induction l with
  | nil => cases hb
  | cons a t ih =>
    cases t with
    | nil =>
      rcases List.mem_singleton.mp hb with rfl
      have hbt : b = tn := by simpa using hl
      exact le_of_eq hbt
    | cons c t' =>
      rw [List.getLast?_cons_cons] at hl
      rcases List.mem_cons.mp hb with rfl | hb'
      · have htn : tn ∈ c :: t' := by
          have hmem := List.mem_getLast?_eq_getLast
            (l := c :: t') (x := tn) (by simpa using hl)
          obtain ⟨h1, h2⟩ := hmem
          rw [h2]
          exact List.getLast_mem h1
        exact (List.sorted_cons.mp hs).1 tn htn
      · exact ih (List.sorted_cons.mp hs).2 hb' hl

theorem foldl_max_zero (l : List Nat) (h : ∀ v ∈ l, v = 0) :
    l.foldl Nat.max 0 = 0 := by
  induction l with
  | nil => rfl
  | cons a t ih =>
    have ha := h a (List.mem_cons_self _ _)
    rw [List.foldl_cons, ha]
    exact ih (fun v hv => h v (List.mem_cons_of_mem _ hv))

/-- Claim C10: for bin_type "normal" the input is not clipped before
binning, so any value below the lowest threshold or at or above the
highest threshold leaves every per-bin one-hot entry at 0, and jnp.argmax
of the all-zero vector is index 0: the value collapses to token 0 (the
lowest bin), never to the highest bin. -/
theorem c10_out_of_range_bins_to_zero (thresholds : List Rat) (x : Rat)
    (hs : thresholds.Sorted (· ≤ ·))
    (hx : (∃ t0, thresholds.head? = some t0 ∧ x < t0) ∨
          (∃ tn, thresholds.getLast? = some tn ∧ tn ≤ x)) :
    (∀ v ∈ binOneHot thresholds x, v = 0) ∧
    ∀ low high, binTokenizerCall BinType.normal low high thresholds x = 0 := by
  have hz : ∀ v ∈ binOneHot thresholds x, v = 0 := by
    intro v hv
    unfold binOneHot at hv
    rw [List.mem_map] at hv
    obtain ⟨pr, hpr, rfl⟩ := hv
    have hmem := List.of_mem_zip hpr
    rcases hx with ⟨t0, hh, hlt⟩ | ⟨tn, hl, hge⟩
    · have h2 : pr.2 ∈ thresholds := List.mem_of_mem_dropLast hmem.2
      obtain ⟨hd, tl, rfl⟩ : ∃ hd tl, thresholds = hd :: tl := by
        cases thresholds with
        | nil => simp at hh
        | cons hd tl => exact ⟨hd, tl, rfl⟩
      have hhd : hd = t0 := by simpa using hh
      have hle : hd ≤ pr.2 := sorted_head_le _ _ hs _ h2
      have hnot : ¬ (pr.2 ≤ x) := not_le.mpr (lt_of_lt_of_le (hhd ▸ hlt) hle)
      simp [hnot]
    · have h1 : pr.1 ∈ thresholds := List.mem_of_mem_drop hmem.1
      have hle : pr.1 ≤ tn := sorted_le_getLast _ hs _ _ h1 hl
      have hnot : ¬ (x < pr.1) := not_lt.mpr (le_trans hle hge)
      simp [hnot]
  refine ⟨hz, fun low high => ?_⟩
  show argmaxIdx (binOneHot thresholds x) = 0
  unfold argmaxIdx
  cases hlist : binOneHot thresholds x with
  | nil => rfl
  | cons v t =>
    have hall0 : ∀ w ∈ v :: t, w = 0 := by
      intro w hw
      exact hz w (hlist ▸ hw)
    have hfold : (v :: t).foldl Nat.max 0 = 0 := foldl_max_zero _ hall0
    have hv0 : v = 0 := hall0 v (List.mem_cons_self _ _)
    rw [List.findIdx_cons, hfold, hv0]
    rfl

/-- Witness for C10: with the sorted thresholds [-1, 0, 1] the value 2,
which is at or above the highest threshold, is mapped to token 0 by the
normal-mode tokenizer call. -/
theorem c10_out_of_range_bins_to_zero_witness :
    binTokenizerCall BinType.normal 0 1 [-1, 0, 1] 2 = 0 :=
  (c10_out_of_range_bins_to_zero [-1, 0, 1] 2 (by decide)
    (Or.inr ⟨1, by decide, by decide⟩)).2 0 1

end Tok

namespace OxeMix

theorem dedup_foldl_eq (mix : List (String × Rat))
    (acc : List (String × Rat)) (seen : List String) :
    (mix.foldl dedupStep (acc, seen)).1 = acc ++ keepFirstIgnoring seen mix := by
  induction mix generalizing acc seen with
  | nil => simp [keepFirstIgnoring]
  | cons p rest ih =>
    rw [List.foldl_cons]
    by_cases hp : p.1 ∈ seen
    · rw [show dedupStep (acc, seen) p = (acc, seen) from if_pos hp]
      rw [ih, keepFirstIgnoring, if_pos hp]
    · rw [show dedupStep (acc, seen) p = (acc ++ [p], seen ++ [p.1]) from
        if_neg hp]
      rw [ih, keepFirstIgnoring, if_neg hp]
      simp

theorem keepFirstIgnoring_eq_filter (mix : List (String × Rat)) :
    ∀ seen : List String,
    keepFirstIgnoring seen mix =
      keepFirst (mix.filter (fun q => decide (q.1 ∉ seen))) := by
  induction mix with
  | nil => intro seen; simp [keepFirstIgnoring, keepFirst]
  | cons p rest ih =>
    intro seen
    by_cases hp : p.1 ∈ seen
    · rw [keepFirstIgnoring, if_pos hp, List.filter_cons]
      have hd : decide (p.1 ∉ seen) = false := by simpa using hp
      rw [hd]
      simp only [Bool.false_eq_true, if_false]
      exact ih seen
    · rw [keepFirstIgnoring, if_neg hp, List.filter_cons]
      have hd : decide (p.1 ∉ seen) = true := by simpa using hp
      rw [hd]
      simp only [if_true]
      rw [keepFirst]
      congr 1
      rw [ih (seen ++ [p.1])]
      congr 1
      rw [List.filter_filter]
      apply List.filter_congr
      intro q _
      by_cases h1 : q.1 ∈ seen <;> by_cases h2 : q.1 = p.1 <;>
        simp [h1, h2]

/-- Claim C8: the deduplication pass of the resolver keeps exactly the
first occurrence of each dataset name with that occurrence's weight (it
agrees with the direct first-occurrence-wins recursion), and on the mix
[("a", 1), ("b", 2), ("a", 3)] with deduplicate = true and a registry
resolving "a" and "b" to the supported EEF_POS encoding, the result has
exactly one entry for "a" with weight 1 and one for "b" with weight 2, in
that order, with both result lists of equal length. -/
theorem c8_dedup_first_occurrence_wins :
    (∀ mix : List (String × Rat), dedupMix mix = keepFirst mix) ∧
    (∀ (registry : String → DatasetConfig) (dataDir : String)
      (nTp nW : Nat) (ld lp : Bool),
      (registry "a").actionEncoding = ActionEncoding.EEF_POS →
      (registry "b").actionEncoding = ActionEncoding.EEF_POS →
      ((makeOxeDatasetKwargsAndWeights registry [("a", 1), ("b", 2), ("a", 3)]
          dataDir true nTp nW ld lp).1.map (fun e => e.name) = ["a", "b"] ∧
        (makeOxeDatasetKwargsAndWeights registry [("a", 1), ("b", 2), ("a", 3)]
          dataDir true nTp nW ld lp).2 = [1, 2] ∧
        (makeOxeDatasetKwargsAndWeights registry [("a", 1), ("b", 2), ("a", 3)]
          dataDir true nTp nW ld lp).1.length =
        (makeOxeDatasetKwargsAndWeights registry [("a", 1), ("b", 2), ("a", 3)]
          dataDir true nTp nW ld lp).2.length)) := by
  constructor
  · intro mix
    unfold dedupMix
    rw [dedup_foldl_eq mix [] [], List.nil_append,
      keepFirstIgnoring_eq_filter mix []]
    congr 1
    rw [List.filter_eq_self]
    intro a _
    simp
  · intro registry dataDir nTp nW ld lp ha hb
    have hmix : (if true then
        dedupMix [("a", 1), ("b", 2), ("a", 3)] else
        [("a", 1), ("b", 2), ("a", 3)]) = [("a", 1), ("b", 2)] := by decide
    have hstep1 : ∀ acc, resolveStep registry dataDir nTp nW ld lp acc
        ("a", 1) = (acc.1 ++ [resolveEntry registry dataDir nTp nW ld lp
          ("a", 1)], acc.2 ++ [1]) := by
      intro acc
      unfold resolveStep
      rw [if_neg]
      simp [ha]
    have hstep2 : ∀ acc, resolveStep registry dataDir nTp nW ld lp acc
        ("b", 2) = (acc.1 ++ [resolveEntry registry dataDir nTp nW ld lp
          ("b", 2)], acc.2 ++ [2]) := by
      intro acc
      unfold resolveStep
      rw [if_neg]
      simp [hb]
    have hres : makeOxeDatasetKwargsAndWeights registry
        [("a", 1), ("b", 2), ("a", 3)] dataDir true nTp nW ld lp =
        ([resolveEntry registry dataDir nTp nW ld lp ("a", 1),
          resolveEntry registry dataDir nTp nW ld lp ("b", 2)], [1, 2]) := by
      unfold makeOxeDatasetKwargsAndWeights
      rw [hmix, List.foldl_cons, hstep1, List.foldl_cons, hstep2,
        List.foldl_nil]
      simp
    rw [hres]
    refine ⟨?_, rfl, rfl⟩
    simp [resolveEntry]

/-- Witness for C8: the concrete resolver run with the regW registry on
the duplicate-bearing mix keeps ("a", 1) and ("b", 2) in order. -/
theorem c8_dedup_first_occurrence_wins_witness :
    (makeOxeDatasetKwargsAndWeights regW [("a", 1), ("b", 2), ("a", 3)]
        "dir" true 1 0 true true).1.map (fun e => e.name) = ["a", "b"] ∧
      (makeOxeDatasetKwargsAndWeights regW [("a", 1), ("b", 2), ("a", 3)]
        "dir" true 1 0 true true).2 = [1, 2] ∧
      (makeOxeDatasetKwargsAndWeights regW [("a", 1), ("b", 2), ("a", 3)]
        "dir" true 1 0 true true).1.length =
      (makeOxeDatasetKwargsAndWeights regW [("a", 1), ("b", 2), ("a", 3)]
        "dir" true 1 0 true true).2.length :=
  c8_dedup_first_occurrence_wins.2 regW "dir" 1 0 true true rfl rfl

theorem resolve_foldl_invariant (registry : String → DatasetConfig)
    (dataDir : String) (nTp nW : Nat) (ld lp : Bool)
    (P : ResolvedDatasetKwargs → Prop)
    (hP : ∀ p : String × Rat,
      P (resolveEntry registry dataDir nTp nW ld lp p)) :
    ∀ (mix : List (String × Rat))
      (acc : List ResolvedDatasetKwargs × List Rat),
      (∀ e ∈ acc.1, P e) →
      ∀ e ∈ (mix.foldl (resolveStep registry dataDir nTp nW ld lp) acc).1,
        P e := by
  intro mix
  induction mix with
  | nil => intro acc hacc e he; exact hacc e he
  | cons p rest ih =>
    intro acc hacc e he
    rw [List.foldl_cons] at he
    refine ih _ ?_ e he
    unfold resolveStep
    by_cases hc : (registry p.1).actionEncoding ≠ ActionEncoding.EEF_POS
    · rw [if_pos hc]
      exact hacc
    · rw [if_neg hc]
      intro e' he'
      rcases List.mem_append.mp he' with hold | hnew
      · exact hacc e' hold
      · rcases List.mem_singleton.mp hnew with rfl
        exact hP p

/-- Claim C9: every dataset kept by the resolver carries the registered
image-observation key list trimmed to the first n_third_person_cameras
keys plus, when n_wrist_cameras > 0, the last n_wrist_cameras keys; on
the example list ["cam0", "cam1", "cam2", "wrist0"] with one third-person
and one wrist camera the trimmed list is ["cam0", "wrist0"], also through
a full resolver run. -/
theorem c9_camera_trimming :
    (∀ (registry : String → DatasetConfig) (dataDir : String)
      (dataMix : List (String × Rat)) (dd : Bool) (nTp nW : Nat)
      (ld lp : Bool),
      ∀ e ∈ (makeOxeDatasetKwargsAndWeights registry dataMix dataDir dd
        nTp nW ld lp).1,
        e.imageObsKeys = trimKeys (registry e.name).imageObsKeys nTp nW) ∧
    trimKeys ["cam0", "cam1", "cam2", "wrist0"] 1 1 = ["cam0", "wrist0"] ∧
    (makeOxeDatasetKwargsAndWeights regW [("d", 1)] "dir" true 1 1 true
      true).1.map (fun e => e.imageObsKeys) = [["cam0", "wrist0"]] := by
  refine ⟨?_, by decide, by decide⟩
  intro registry dataDir dataMix dd nTp nW ld lp e he
  unfold makeOxeDatasetKwargsAndWeights at he
  refine resolve_foldl_invariant registry dataDir nTp nW ld lp
    (fun e => e.imageObsKeys = trimKeys (registry e.name).imageObsKeys nTp nW)
    ?_ _ ([], []) (by intro e' he'; cases he') e he
  intro p
  simp [resolveEntry]

/-- Witness for C9: the entry the resolver builds for dataset "d" under
the regW registry carries the trimmed camera keys. -/
theorem c9_camera_trimming_witness :
    (resolveEntry regW "dir" 1 1 true true ("d", 1)).imageObsKeys =
      trimKeys (regW (resolveEntry regW "dir" 1 1 true true
        ("d", 1)).name).imageObsKeys 1 1 :=
  c9_camera_trimming.1 regW "dir" [("d", 1)] true 1 1 true true
    (resolveEntry regW "dir" 1 1 true true ("d", 1)) (by decide)

end OxeMix

namespace Orca

theorem getD_mem {γ : Type} (l : List γ) (i : Nat) (d : γ)
    (h : i < l.length) : l.getD i d ∈ l := by
  rw [List.getD_eq_getElem _ _ h]
  exact List.getElem_mem _

theorem splitTokensE_getD_length {β : Type} (counts : List Nat) :
    ∀ (xs : List β), xs.length = counts.sum →
    ∀ gi, gi < counts.length →
      ((splitTokensE counts xs).getD gi []).length = counts.getD gi 0 := by
  induction counts with
  | nil => intro xs _ gi hgi; cases hgi
  | cons c cs ih =>
    intro xs hlen gi hgi
    cases gi with
    | zero =>
      show (xs.take c).length = c
      rw [List.length_take]
      rw [List.sum_cons] at hlen
      omega
    | succ gi' =>
      show ((splitTokensE cs (xs.drop c)).getD gi' []).length = cs.getD gi' 0
      refine ih (xs.drop c) ?_ gi' (by simpa using hgi)
      rw [List.length_drop]
      rw [List.sum_cons] at hlen
      omega

theorem splitTokensE_subset {β : Type} (counts : List Nat) :
    ∀ (xs : List β) gi (v : β),
      v ∈ (splitTokensE counts xs).getD gi [] → v ∈ xs := by
  induction counts with
  | nil =>
    intro xs gi v hv
    cases gi with
    | zero => exact hv
    | succ gi' => cases hv
  | cons c cs ih =>
    intro xs gi v hv
    cases gi with
    | zero => exact List.mem_of_mem_take hv
    | succ gi' => exact List.mem_of_mem_drop (ih (xs.drop c) gi' v hv)

theorem chunkRows_length {β : Type} (h n : Nat) :
    ∀ xs : List β, (chunkRows h n xs).length = h := by
  induction h with
  | zero => intro xs; rfl
  | succ h' ih =>
    intro xs
    show (xs.take n :: chunkRows h' n (xs.drop n)).length = h' + 1
    rw [List.length_cons, ih]

theorem chunkRows_chunk_length {β : Type} (h n : Nat) :
    ∀ (xs : List β), xs.length = h * n →
    ∀ c ∈ chunkRows h n xs, c.length = n := by
  induction h with
  | zero => intro xs _ c hc; cases hc
  | succ h' ih =>
    intro xs hlen c hc
    rcases List.mem_cons.mp hc with rfl | hc'
    · rw [List.length_take, Nat.succ_mul] at *
      omega
    · refine ih (xs.drop n) ?_ c hc'
      rw [List.length_drop, Nat.succ_mul] at *
      omega

theorem chunkRows_subset {β : Type} (h n : Nat) :
    ∀ (xs : List β) (c : List β), c ∈ chunkRows h n xs →
    ∀ v ∈ c, v ∈ xs := by
  induction h with
  | zero => intro xs c hc; cases hc
  | succ h' ih =>
    intro xs c hc v hv
    rcases List.mem_cons.mp hc with rfl | hc'
    · exact List.mem_of_mem_take hv
    · exact List.mem_of_mem_drop (ih (xs.drop n) c hc' v hv)

theorem range_map_getD {γ δ : Type} (l : List γ) (d : γ) (f : γ → δ) :
    (List.range l.length).map (fun i => f (l.getD i d)) = l.map f := by
  apply List.ext_getElem
  · simp
  · intro i h1 h2
    simp only [List.getElem_map, List.getElem_range]
    rw [List.getD_eq_getElem _ _ (by simpa using h2)]

end Orca

namespace Orca

/-- Claim C6: for every configuration of groups (zero non-temporal groups
allowed) whose tensors have uniform batch B, horizon H and input width
dIn, and every encoder that preserves the batch and sequence lengths and
writes embeddings of width dOut, the forward call succeeds and
disassembles the encoder output into one group per input group, in order,
with names preserved, and with tensor shapes (B, n_tokens, dOut)
respectively (B, H, n_tokens, dOut) matching the inputs except for the
embedding width. -/
theorem c6_shape_round_trip
    (E : List (List (List Rat)) → (Nat → Nat → Nat → Nat → Bool) →
      List (List (List Rat)))
    (numHeads B H dIn dOut : Nat)
    (pgroups : List (PrefixGroup (List Rat)))
    (tgroups : List (TimestepGroup (List Rat)))
    (padMask : List (List Bool))
    (hB : 0 < B) (hH : 0 < H) (htne : tgroups ≠ [])
    (hpg : ∀ g ∈ pgroups, Shape3 g.tokens B (nTokensP g) dIn)
    (htg : ∀ g ∈ tgroups, Shape4 g.tokens B H (nTokensT g) dIn)
    (hE1 : ∀ x m, (E x m).length = x.length)
    (hE2 : ∀ x m b, ((E x m).getD b []).length = (x.getD b []).length)
    (hE3 : ∀ x m, ∀ r ∈ E x m, ∀ v ∈ r, v.length = dOut) :
    ∃ pouts touts,
      blockTransformerCall E numHeads pgroups tgroups padMask =
        some (pouts, touts) ∧
      pouts.map (fun g => g.name) = pgroups.map (fun g => g.name) ∧
      touts.map (fun g => g.name) = tgroups.map (fun g => g.name) ∧
      pouts.length = pgroups.length ∧
      touts.length = tgroups.length ∧
      (∀ gi, gi < pgroups.length →
        Shape3 ((pouts.getD gi ⟨"", [], []⟩).tokens) B
          (nTokensP (pgroups.getD gi ⟨"", [], []⟩)) dOut) ∧
      (∀ gi, gi < tgroups.length →
        Shape4 ((touts.getD gi ⟨"", [], []⟩).tokens) B H
          (nTokensT (tgroups.getD gi ⟨"", [], []⟩)) dOut) := by
  obtain ⟨t0, rest, rfl⟩ : ∃ t0 rest, tgroups = t0 :: rest := by
    cases tgroups with
    | nil => exact absurd rfl htne
    | cons t0 rest => exact ⟨t0, rest, rfl⟩
  have hhor : ∀ g ∈ t0 :: rest, (g.tokens.headD []).length = H := by
    intro g hg
    obtain ⟨hlen, hall⟩ := htg g hg
    cases hx : g.tokens with
    | nil => rw [hx] at hlen; simp at hlen; omega
    | cons s ss =>
      have hs : s ∈ g.tokens := by rw [hx]; exact List.mem_cons_self _ _
      have hsl := (hall s hs).1
      simpa using hsl
  have hhor0 : (t0.tokens.headD []).length = H :=
    hhor t0 (List.mem_cons_self _ _)
  have hcheck : ((t0 :: rest).all
      (fun g => (g.tokens.headD []).length =
        (t0.tokens.headD []).length)) = true := by
    rw [List.all_eq_true]
    intro g hg
    exact decide_eq_true ((hhor g hg).trans hhor0.symm)
  have hb0 : t0.tokens.length = B := (htg t0 (List.mem_cons_self _ _)).1
  have hasm : assembleInputTokens pgroups (t0 :: rest) =
      (List.range B).map (fun b =>
        (pgroups.map (fun g => g.tokens.getD b [])).flatten ++
          ((List.range H).map (fun t =>
            ((t0 :: rest).map (fun g =>
              (g.tokens.getD b []).getD t [])).flatten)).flatten) := by
    unfold assembleInputTokens
    simp only [List.getD_cons_zero]
    rw [hb0]
    simp only [hhor0]
  have hinput_len : (assembleInputTokens pgroups (t0 :: rest)).length = B := by
    rw [hasm, List.length_map, List.length_range]
  have hrow : ∀ b, b < B →
      (assembleInputTokens pgroups (t0 :: rest)).getD b [] =
        (pgroups.map (fun g => g.tokens.getD b [])).flatten ++
          ((List.range H).map (fun t =>
            ((t0 :: rest).map (fun g =>
              (g.tokens.getD b []).getD t [])).flatten)).flatten := by
    intro b hb
    rw [hasm, List.getD_eq_getElem _ _ (by simpa using hb)]
    simp only [List.getElem_map, List.getElem_range]
  have hrow_len : ∀ b, b < B →
      ((assembleInputTokens pgroups (t0 :: rest)).getD b []).length =
        (pgroups.map nTokensP).sum +
          H * ((t0 :: rest).map nTokensT).sum := by
    intro b hb
    rw [hrow b hb, List.length_append]
    have h1 : ((pgroups.map (fun g => g.tokens.getD b [])).flatten).length =
        (pgroups.map nTokensP).sum := by
      rw [List.length_flatten, List.map_map]
      congr 1
      apply List.map_congr_left
      intro g hg
      obtain ⟨hlg, hallg⟩ := hpg g hg
      have hmem : g.tokens.getD b [] ∈ g.tokens :=
        getD_mem _ _ _ (by omega)
      exact (hallg _ hmem).1
    have h2 : (((List.range H).map (fun t =>
        ((t0 :: rest).map (fun g =>
          (g.tokens.getD b []).getD t [])).flatten)).flatten).length =
        H * ((t0 :: rest).map nTokensT).sum := by
      rw [List.length_flatten, List.map_map]
      have hconst : (List.range H).map (List.length ∘ fun t =>
          ((t0 :: rest).map (fun g =>
            (g.tokens.getD b []).getD t [])).flatten) =
          (List.range H).map (fun _ => ((t0 :: rest).map nTokensT).sum) := by
        apply List.map_congr_left
        intro t htm
        have ht : t < H := List.mem_range.mp htm
        show (((t0 :: rest).map (fun g =>
          (g.tokens.getD b []).getD t [])).flatten).length = _
        rw [List.length_flatten, List.map_map]
        congr 1
        apply List.map_congr_left
        intro g hg
        obtain ⟨hlg, hallg⟩ := htg g hg
        have hmem1 : g.tokens.getD b [] ∈ g.tokens :=
          getD_mem _ _ _ (by omega)
        obtain ⟨hslen, hsall⟩ := hallg _ hmem1
        have hmem2 : (g.tokens.getD b []).getD t [] ∈ g.tokens.getD b [] :=
          getD_mem _ _ _ (by omega)
        exact (hsall _ hmem2).1
      rw [hconst]
      simp [List.sum_replicate, Nat.mul_comm]
    rw [h1, h2]
  have hout_len : (E (assembleInputTokens pgroups (t0 :: rest))
      (generateAttentionMask numHeads pgroups (t0 :: rest) padMask)).length =
      B := by
    rw [hE1, hinput_len]
  have hout_row_len : ∀ r ∈ E (assembleInputTokens pgroups (t0 :: rest))
      (generateAttentionMask numHeads pgroups (t0 :: rest) padMask),
      r.length = (pgroups.map nTokensP).sum +
        H * ((t0 :: rest).map nTokensT).sum := by
    intro r hr
    obtain ⟨i, hi, heq⟩ := List.mem_iff_getElem.mp hr
    have hiB : i < B := by rw [hout_len] at hi; exact hi
    have hri : r = (E (assembleInputTokens pgroups (t0 :: rest))
        (generateAttentionMask numHeads pgroups (t0 :: rest) padMask)).getD
        i [] := by
      rw [List.getD_eq_getElem _ _ hi, heq]
    rw [hri, hE2]
    exact hrow_len i hiB
  have hout_dOut : ∀ r ∈ E (assembleInputTokens pgroups (t0 :: rest))
      (generateAttentionMask numHeads pgroups (t0 :: rest) padMask),
      ∀ v ∈ r, v.length = dOut := by
    intro r hr v hv
    exact hE3 _ _ r hr v hv
  refine ⟨disassembleP pgroups (E (assembleInputTokens pgroups (t0 :: rest))
      (generateAttentionMask numHeads pgroups (t0 :: rest) padMask)),
    disassembleT (t0 :: rest) H ((pgroups.map nTokensP).sum)
      (E (assembleInputTokens pgroups (t0 :: rest))
        (generateAttentionMask numHeads pgroups (t0 :: rest) padMask)),
    ?_, ?_, ?_, ?_, ?_, ?_, ?_⟩
  · rw [blockTransformerCall, if_pos hcheck, hhor0]
  · by_cases hp : 0 < pgroups.length
    · unfold disassembleP
      rw [if_pos hp, List.map_map]
      simp only [Function.comp]
      exact range_map_getD pgroups ⟨"", [], []⟩ (fun g => g.name)
    · have hpe : pgroups = [] := List.length_eq_zero.mp (by omega)
      rw [hpe]
      unfold disassembleP
      simp
  · unfold disassembleT
    rw [List.map_map]
    simp only [Function.comp]
    exact range_map_getD (t0 :: rest) ⟨"", [], []⟩ (fun g => g.name)
  · by_cases hp : 0 < pgroups.length
    · unfold disassembleP
      rw [if_pos hp]
      simp
    · have hpe : pgroups = [] := List.length_eq_zero.mp (by omega)
      rw [hpe]
      unfold disassembleP
      simp
  · unfold disassembleT
    simp
  · intro gi hgi
    have hpget : (disassembleP pgroups (E (assembleInputTokens pgroups
        (t0 :: rest)) (generateAttentionMask numHeads pgroups (t0 :: rest)
        padMask))).getD gi ⟨"", [], []⟩ =
        ⟨(pgroups.getD gi ⟨"", [], []⟩).name,
          (E (assembleInputTokens pgroups (t0 :: rest))
            (generateAttentionMask numHeads pgroups (t0 :: rest)
              padMask)).map (fun row =>
            (splitTokensE (pgroups.map nTokensP)
              (row.take (pgroups.map nTokensP).sum)).getD gi []),
          (pgroups.getD gi ⟨"", [], []⟩).attendsTo⟩ := by
      unfold disassembleP
      rw [if_pos (Nat.lt_of_le_of_lt (Nat.zero_le _) hgi)]
      rw [List.getD_eq_getElem _ _ (by simpa using hgi)]
      simp only [List.getElem_map, List.getElem_range]
    rw [hpget]
    refine ⟨by rw [List.length_map]; exact hout_len, ?_⟩
    intro r hr
    rw [List.mem_map] at hr
    obtain ⟨row, hrow_mem, rfl⟩ := hr
    have hrl := hout_row_len row hrow_mem
    have htake : (row.take (pgroups.map nTokensP).sum).length =
        (pgroups.map nTokensP).sum := by
      rw [List.length_take]
      rw [Nat.min_eq_left (by omega)]
    refine ⟨?_, ?_⟩
    · rw [splitTokensE_getD_length (pgroups.map nTokensP) _ htake gi
        (by simpa using hgi)]
      rw [List.getD_eq_getElem _ _ (by simpa using hgi),
        List.getElem_map, List.getD_eq_getElem _ _ hgi]
    · intro v hv
      exact hout_dOut row hrow_mem v
        (List.mem_of_mem_take (splitTokensE_subset _ _ gi v hv))
  · intro gi hgi
    have htget : (disassembleT (t0 :: rest) H ((pgroups.map nTokensP).sum)
        (E (assembleInputTokens pgroups (t0 :: rest))
          (generateAttentionMask numHeads pgroups (t0 :: rest)
            padMask))).getD gi ⟨"", [], []⟩ =
        ⟨((t0 :: rest).getD gi ⟨"", [], []⟩).name,
          (E (assembleInputTokens pgroups (t0 :: rest))
            (generateAttentionMask numHeads pgroups (t0 :: rest)
              padMask)).map (fun row =>
            (chunkRows H ((t0 :: rest).map nTokensT).sum
              (row.drop (pgroups.map nTokensP).sum)).map
              (fun step =>
                (splitTokensE ((t0 :: rest).map nTokensT) step).getD gi [])),
          ((t0 :: rest).getD gi ⟨"", [], []⟩).attendsTo⟩ := by
      unfold disassembleT
      rw [List.getD_eq_getElem _ _ (by simpa using hgi)]
      simp only [List.getElem_map, List.getElem_range]
    rw [htget]
    refine ⟨by rw [List.length_map]; exact hout_len, ?_⟩
    intro s hs
    rw [List.mem_map] at hs
    obtain ⟨row, hrow_mem, rfl⟩ := hs
    have hrl := hout_row_len row hrow_mem
    have hdrop : (row.drop (pgroups.map nTokensP).sum).length =
        H * ((t0 :: rest).map nTokensT).sum := by
      rw [List.length_drop]
      omega
    refine ⟨by rw [List.length_map, chunkRows_length], ?_⟩
    intro r hr
    rw [List.mem_map] at hr
    obtain ⟨step, hstep_mem, rfl⟩ := hr
    have hsteplen : step.length = ((t0 :: rest).map nTokensT).sum :=
      chunkRows_chunk_length H _ _ hdrop step hstep_mem
    refine ⟨?_, ?_⟩
    · rw [splitTokensE_getD_length ((t0 :: rest).map nTokensT) step
        hsteplen gi (by simpa using hgi)]
      rw [List.getD_eq_getElem _ _ (by simpa using hgi),
        List.getElem_map, List.getD_eq_getElem _ _ hgi]
    · intro v hv
      have hv1 : v ∈ step := splitTokensE_subset _ _ gi v hv
      have hv2 : v ∈ row.drop (pgroups.map nTokensP).sum :=
        chunkRows_subset H _ _ step hstep_mem v hv1
      exact hout_dOut row hrow_mem v (List.mem_of_mem_drop hv2)

end Orca

namespace Orca

/-- Witness for C6: task(1 token, width 2), obs(1 token per step, horizon
1, width 2), pad [[true]] and the width-1 constant encoder. -/
theorem c6_shape_round_trip_witness :
    ∃ pouts touts,
      blockTransformerCall constEncoder 8 [c6Task] [c6Obs] [[true]] =
        some (pouts, touts) ∧
      pouts.map (fun g => g.name) = [c6Task].map (fun g => g.name) ∧
      touts.map (fun g => g.name) = [c6Obs].map (fun g => g.name) ∧
      pouts.length = [c6Task].length ∧
      touts.length = [c6Obs].length ∧
      (∀ gi, gi < [c6Task].length →
        Shape3 ((pouts.getD gi ⟨"", [], []⟩).tokens) 1
          (nTokensP ([c6Task].getD gi ⟨"", [], []⟩)) 1) ∧
      (∀ gi, gi < [c6Obs].length →
        Shape4 ((touts.getD gi ⟨"", [], []⟩).tokens) 1 1
          (nTokensT ([c6Obs].getD gi ⟨"", [], []⟩)) 1) :=
  c6_shape_round_trip constEncoder 8 1 1 2 1 [c6Task] [c6Obs] [[true]]
    (by decide) (by decide) (by decide)
    (by
      intro g hg
      rw [List.mem_singleton] at hg
      subst hg
      unfold Shape3
      decide)
    (by
      intro g hg
      rw [List.mem_singleton] at hg
      subst hg
      unfold Shape4
      decide)
    (fun x m => by simp [constEncoder])
    (fun x m b => by
      unfold constEncoder
      rcases Nat.lt_or_ge b x.length with hb | hb
      · rw [List.getD_eq_getElem _ _ (by simpa using hb),
          List.getD_eq_getElem _ _ hb, List.getElem_map]
        simp
      · rw [List.getD_eq_default _ _ (by simpa using hb),
          List.getD_eq_default _ _ hb])
    (fun x m r hr v hv => by
      unfold constEncoder at hr
      rw [List.mem_map] at hr
      obtain ⟨row, _, rfl⟩ := hr
      rw [List.mem_map] at hv
      obtain ⟨w, _, rfl⟩ := hv
      rfl)

end Orca
